import Mathlib

/-!
Shallow embedding of the Roland SP-404 automation pipeline
(`roland_sp404_local_automation.py` and, for the channel policy, the SMB
variant `roland_sp404_automation.py`), together with theorems settling the
frozen claims about name normalization, audio conversion and the recursive
directory orchestrator.

File names are modelled as `List Char`.  The Python code applies
`unicodedata.normalize('NFKD', ·)` to the stem before any filtering; the
NFKD transform itself is external library behaviour, so the embedding takes
it as an explicit function parameter `nfkd : List Char → List Char`.  On
ASCII input NFKD is the identity, so concrete ASCII instances use `id`.
-/

namespace SP404

/-- ASCII letter or digit, the character class `[a-zA-Z0-9]`. -/
def isAsciiAlphaNum (c : Char) : Bool :=
  ('a' ≤ c && c ≤ 'z') || ('A' ≤ c && c ≤ 'Z') || ('0' ≤ c && c ≤ '9')

/-- Characters kept by the filter `re.sub(r'[^a-zA-Z0-9_]', '', ·)`:
the class `[a-zA-Z0-9_]`. -/
def isAllowedChar (c : Char) : Bool :=
  isAsciiAlphaNum c || c == '_'

/-- Model of `pathlib.Path(name).stem` / `.suffix` for a bare file name:
the suffix is `name[i:]` for `i` the index of the last dot, provided
`0 < i < len(name) - 1`; otherwise the suffix is empty and the stem is the
whole name. -/
def splitExt (l : List Char) : List Char × List Char :=
  let r := l.reverse
  let extRev := r.takeWhile (fun c => c != '.')
  match r.drop extRev.length with
  | [] => (l, [])
  | _ :: stemRev =>
    if stemRev.isEmpty || extRev.isEmpty then (l, [])
    else (stemRev.reverse, '.' :: extRev.reverse)

/-- Model of `re.sub(r'_+', '_', ·)`: collapse each run of underscores to a
single underscore. -/
def collapseU : List Char → List Char
  | [] => []
  | [c] => [c]
  | a :: b :: rest =>
    if a == '_' && b == '_' then collapseU (b :: rest)
    else a :: collapseU (b :: rest)

/-- Model of `str.strip('_')`: drop underscores from both ends. -/
def stripU (l : List Char) : List Char :=
  ((l.dropWhile (fun c => c == '_')).reverse.dropWhile (fun c => c == '_')).reverse

/-- Decimal digits, most significant first; the first argument is fuel
(structural, so the kernel can evaluate it), sufficient whenever
`n ≤ fuel`. -/
def natDigitsAux : ℕ → ℕ → List Char
  | 0, _ => []
  | _, 0 => []
  | fuel + 1, n + 1 =>
    natDigitsAux fuel ((n + 1) / 10) ++ [Char.ofNat (48 + (n + 1) % 10)]

/-- Decimal digits of `n` (empty for `0`), most significant first. -/
def natDigits (n : ℕ) : List Char := natDigitsAux n n

/-- Decimal rendering of a natural number. -/
def natDecimal (n : ℕ) : List Char :=
  if n = 0 then ['0'] else natDigits n

/-- Model of the Python format `f"{n:03d}"`: decimal, zero-padded on the
left to at least three characters. -/
def pad3 (n : ℕ) : List Char :=
  List.replicate (3 - (natDecimal n).length) '0' ++ natDecimal n

/-- The stem-cleaning pipeline of `normalize_name`: NFKD, replace each
space character by an underscore, drop characters outside `[a-zA-Z0-9_]`,
collapse underscore runs, strip underscores at both ends. -/
def processStem (nfkd : List Char → List Char) (stem : List Char) : List Char :=
  stripU (collapseU
    (((nfkd stem).map (fun c => if c == ' ' then '_' else c)).filter isAllowedChar))

/-- The literal fallback prefix used when the cleaned stem is empty. -/
def unnamedLit : List Char := ['u', 'n', 'n', 'a', 'm', 'e', 'd']

/-- Embedding of `RolandSP404LocalAutomation.normalize_name`.  The stem and
lower-cased suffix are split off first; the cleaned stem falls back to
`unnamed_{counter:03d}` when empty, gains the suffix `_{counter:03d}` when
`counter > 0`, and the extension is appended verbatim. -/
def normalize_name (nfkd : List Char → List Char) (name : List Char)
    (counter : ℕ) : List Char :=
  let ext := (splitExt name).2.map Char.toLower
  let n5 := processStem nfkd (splitExt name).1
  let n6 :=
    if n5.isEmpty then unnamedLit ++ '_' :: pad3 counter
    else if 0 < counter then n5 ++ '_' :: pad3 counter
    else n5
  n6 ++ ext

/-- The extension part `(\.[a-z0-9]+)?` of the spec's output pattern. -/
def matchesExtPat : List Char → Bool
  | [] => true
  | e0 :: rest =>
    e0 == '.' && !rest.isEmpty &&
      rest.all (fun c => ('a' ≤ c && c ≤ 'z') || ('0' ≤ c && c ≤ '9'))

/-- The spec's output pattern for normalized names:
a nonempty run of `[a-zA-Z0-9_]`, optionally followed by a dot and a
nonempty run of `[a-z0-9]`.  Since a dot is not in the first class, the
greedy split at the first disallowed character is equivalent to the
regular expression. -/
def matchesNamePat (l : List Char) : Bool :=
  let stemPart := l.takeWhile isAllowedChar
  !stemPart.isEmpty && matchesExtPat (l.drop stemPart.length)

/-!
Audio conversion model (`convert_audio_file`).

Decoded audio is represented channel-major: `channels` is one sample list
per channel, all of equal length in well-formed data, and `sampleRate` is
the decoded rate.  Samples are rationals, the exact-arithmetic shadow of
the floating-point samples delivered by `soundfile.read`.  The band-limited
resampler `scipy.signal.resample` is external library code, so the
embedding takes it as a function parameter
`res : List ℚ → ℕ → List ℚ` (input channel, requested output length).
-/

/-- Decoded audio: one sample list per channel plus the sample rate. -/
structure AudioData where
  sampleRate : ℕ
  channels : List (List ℚ)
  deriving DecidableEq, Repr

/-- Quantized 16-bit audio as produced by the conversion. -/
structure PCMData where
  sampleRate : ℕ
  channels : List (List ℤ)
  deriving DecidableEq, Repr

/-- `len(data)`: the per-channel sample count (frame count). -/
def nsamples (a : AudioData) : ℕ := (a.channels.headD []).length

/-- `min(self.supported_sample_rates, key=lambda x: abs(x - rate))` over
`[44100, 48000]`: Python's `min` keeps the first element on ties, so the
result is 44100 exactly when `|44100 - rate| ≤ |48000 - rate|`. -/
def chooseTargetRate (sr : ℕ) : ℕ :=
  if ((44100 : ℤ) - sr).natAbs ≤ ((48000 : ℤ) - sr).natAbs then 44100 else 48000

/-- The resampling step: when the chosen rate differs from the input rate,
each channel is resampled to `int(len(data) * target / current)` samples
(`int` of the exact ratio truncates, i.e. floor for nonnegative values);
otherwise the data passes through unchanged. -/
def resampleData (res : List ℚ → ℕ → List ℚ) (a : AudioData) : AudioData :=
  let tr := chooseTargetRate a.sampleRate
  if a.sampleRate = tr then a
  else
    { sampleRate := tr,
      channels := a.channels.map (fun ch => res ch (nsamples a * tr / a.sampleRate)) }

/-- Greatest absolute sample value of one channel (`np.max(np.abs(·))`,
taken as 0 for empty data). -/
def absMax (l : List ℚ) : ℚ := l.foldr (fun x m => max |x| m) 0

/-- Greatest absolute sample value across all channels. -/
def peakOf (chs : List (List ℚ)) : ℚ := (chs.map absMax).foldr max 0

/-- Peak normalization: `if np.max(np.abs(data)) > 0: data = data /
np.max(np.abs(data)) * 0.95`; the scaling is skipped when the peak is not
positive. -/
def scaleData (a : AudioData) : AudioData :=
  let p := peakOf a.channels
  if 0 < p then
    { a with channels := a.channels.map (List.map (fun x => x / p * (19 / 20))) }
  else a

/-- Truncation toward zero, the rounding mode of a float-to-integer cast. -/
def ratTrunc (q : ℚ) : ℤ := if 0 ≤ q then ⌊q⌋ else ⌈q⌉

/-- Wrap an integer into the signed 16-bit range, the overflow behaviour of
`astype(np.int16)`; it is the identity on `[-32768, 32767]`. -/
def wrap16 (z : ℤ) : ℤ := ((z + 32768) % 65536 + 65536) % 65536 - 32768

/-- `(x * 32767).astype(np.int16)` for one sample: scale, truncate toward
zero, wrap to 16 bits. -/
def toInt16 (x : ℚ) : ℤ := wrap16 (ratTrunc (x * 32767))

/-- Embedding of `RolandSP404LocalAutomation.convert_audio_file` (the
successful path): resample to the nearest supported rate, keep the channel
layout as-is, peak-normalize to 0.95, quantize to 16-bit. -/
def convert_audio_file (res : List ℚ → ℕ → List ℚ) (a : AudioData) : PCMData :=
  let c := scaleData (resampleData res a)
  { sampleRate := c.sampleRate, channels := c.channels.map (List.map toInt16) }

/-- Per-frame mean of all channels (`np.mean(data, axis=1)`), used by the
SMB variant to downmix multi-channel audio to mono. -/
def mixdown (chs : List (List ℚ)) : List ℚ :=
  (List.range (chs.headD []).length).map
    (fun i => (chs.map (fun ch => ch.getD i 0)).sum / chs.length)

/-- Embedding of `RolandSP404Automation.convert_audio_file` (the SMB
variant): identical pipeline except that input with more than one channel
is downmixed to mono after resampling. -/
def convert_audio_file_smb (res : List ℚ → ℕ → List ℚ) (a : AudioData) : PCMData :=
  let b := resampleData res a
  let b2 := if 1 < a.channels.length then
      { sampleRate := b.sampleRate, channels := [mixdown b.channels] }
    else b
  let c := scaleData b2
  { sampleRate := c.sampleRate, channels := c.channels.map (List.map toInt16) }

/-!
Orchestrator model (`process_directory`).

A source tree is a list of named items (files and directories, in listing
order).  Conversion success is abstracted by an oracle `ok` on the source
file name, standing for the boolean result of `convert_audio_file`
(which returns `False` instead of raising on any per-file error).  The
orchestrator's observable behaviour is the list of actions it performs.
-/

/-- A directory entry of the source tree. -/
inductive FSItem where
  | file (name : List Char) : FSItem
  | dir (name : List Char) (contents : List FSItem) : FSItem

/-- One observable action of the orchestrator: a successful write under a
normalized name, a logged conversion failure, a skipped non-WAV file, or a
recursively processed subdirectory. -/
inductive OutAction where
  | wrote (outName : List Char) : OutAction
  | failed (srcName : List Char) : OutAction
  | skipped (srcName : List Char) : OutAction
  | subdir (outName : List Char) (sub : List OutAction) : OutAction

/-- `item.suffix.lower() == '.wav'`: the qualifying-extension test. -/
def isWavName (name : List Char) : Bool :=
  (splitExt name).2.map Char.toLower == ['.', 'w', 'a', 'v']

/-- The `for item in items` loop body of `process_directory`, carrying the
per-directory `file_counter`.  A qualifying file is written under
`normalize_name(name, counter)` and the counter advances only when the
conversion oracle reports success; a subdirectory is normalized with the
default counter 0 and recursively processed with a fresh counter starting
at 0. -/
def processItems (nfkd : List Char → List Char) (ok : List Char → Bool) :
    List FSItem → ℕ → List OutAction
  | [], _ => []
  | FSItem.file name :: rest, c =>
    if isWavName name then
      if ok name then
        OutAction.wrote (normalize_name nfkd name c) :: processItems nfkd ok rest (c + 1)
      else
        OutAction.failed name :: processItems nfkd ok rest c
    else
      OutAction.skipped name :: processItems nfkd ok rest c
  | FSItem.dir name sub :: rest, c =>
    OutAction.subdir (normalize_name nfkd name 0) (processItems nfkd ok sub 0) ::
      processItems nfkd ok rest c

/-- Embedding of `RolandSP404LocalAutomation.process_directory` for one
directory: the counter is a local initialized to 0 for this call. -/
def process_directory (nfkd : List Char → List Char) (ok : List Char → Bool)
    (items : List FSItem) : List OutAction :=
  processItems nfkd ok items 0

/-!
Claim-side definitions: the quantization and sample-count formulas the spec
asserts, written from the spec's own words so they can be compared with the
code's behaviour.
-/

/-- The spec's quantization formula: `round(sample * 32767)` clamped to the
signed 16-bit range.  (`⌊x + 1/2⌋` is round-half-up; at every value this
development evaluates it on, the argument is not a half-integer, so every
rounding convention agrees.) -/
def clampRound16 (x : ℚ) : ℤ :=
  max (-32768) (min 32767 ⌊x * 32767 + 1 / 2⌋)

/-- The spec's sample-count formula: `round(n * targetRate / inputRate)`,
as round-half-up on the exact ratio. -/
def specRound (q : ℚ) : ℤ := ⌊q + 1 / 2⌋

/-! ### Helper lemmas: character classes -/

theorem alnum_allowed {c : Char} (h : isAsciiAlphaNum c = true) :
    isAllowedChar c = true := by
  simp [isAllowedChar, h]

theorem alnum_ne_underscore {c : Char} (h : isAsciiAlphaNum c = true) :
    (c == '_') = false := by
  rcases Decidable.eq_or_ne c '_' with rfl | hne
  · exact absurd h (by decide)
  · exact beq_eq_false_iff_ne.mpr hne

theorem alnum_ne_space {c : Char} (h : isAsciiAlphaNum c = true) :
    (c == ' ') = false := by
  rcases Decidable.eq_or_ne c ' ' with rfl | hne
  · exact absurd h (by decide)
  · exact beq_eq_false_iff_ne.mpr hne

theorem alnum_ne_dot {c : Char} (h : isAsciiAlphaNum c = true) :
    (c != '.') = true := by
  rcases Decidable.eq_or_ne c '.' with rfl | hne
  · exact absurd h (by decide)
  · simp [bne, beq_eq_false_iff_ne.mpr hne]

/-! ### Helper lemmas: the stem pipeline -/

theorem splitExt_no_dot {l : List Char} (h : ∀ c ∈ l, (c != '.') = true) :
    splitExt l = (l, []) := by
  unfold splitExt
  have ht : l.reverse.takeWhile (fun c => c != '.') = l.reverse :=
    List.takeWhile_eq_self_iff.mpr (fun x hx => h x (List.mem_reverse.mp hx))
  have hd : List.drop l.length l.reverse = [] := by
    rw [← List.length_reverse]
    exact List.drop_length _
  simp [ht, hd]

theorem collapseU_sublist (l : List Char) : (collapseU l).Sublist l := by
  induction l with
  | nil => simp [collapseU]
  | cons a t ih =>
    cases t with
    | nil => simp [collapseU]
    | cons b r =>
      by_cases hab : (a == '_' && b == '_') = true
      · rw [show collapseU (a :: b :: r) = collapseU (b :: r) by simp [collapseU, hab]]
        exact ih.cons a
      · rw [show collapseU (a :: b :: r) = a :: collapseU (b :: r) by
          simp only [collapseU]; rw [if_neg hab]]
        exact ih.cons₂ a

theorem collapseU_cons_of_ne {a : Char} (h : (a == '_') = false) (l : List Char) :
    collapseU (a :: l) = a :: collapseU l := by
  cases l with
  | nil => simp [collapseU]
  | cons b r => simp [collapseU, h]

theorem collapseU_append_alnum {xs : List Char}
    (h : ∀ c ∈ xs, isAsciiAlphaNum c = true) (t : List Char) :
    collapseU (xs ++ t) = xs ++ collapseU t := by
  induction xs with
  | nil => rfl
  | cons a r ih =>
    have ha := alnum_ne_underscore (h a (by simp))
    rw [List.cons_append, collapseU_cons_of_ne ha,
      ih (fun c hc => h c (by simp [hc]))]
    rfl

theorem collapseU_alnum {b : List Char} (hb : ∀ c ∈ b, isAsciiAlphaNum c = true) :
    collapseU b = b := by
  have := collapseU_append_alnum hb []
  simpa [collapseU] using this

theorem collapseU_replicate {b : List Char}
    (hb : ∀ c ∈ b, isAsciiAlphaNum c = true) :
    ∀ k, 1 ≤ k → collapseU (List.replicate k '_' ++ b) = '_' :: b := by
  intro k
  induction k with
  | zero => intro h; exact absurd h (by omega)
  | succ m ih =>
    intro _
    cases Nat.eq_zero_or_pos m with
    | inl h0 =>
      subst h0
      cases b with
      | nil => simp [collapseU]
      | cons c r =>
        have hc := alnum_ne_underscore (hb c (by simp))
        have hr : collapseU (c :: r) = c :: r := collapseU_alnum hb
        simp [collapseU, hc, hr]
    | inr h0 =>
      have hrec := ih h0
      obtain ⟨m', rfl⟩ : ∃ m', m = m' + 1 := ⟨m - 1, by omega⟩
      have h2 : List.replicate (m' + 1 + 1) '_' ++ b =
          '_' :: '_' :: (List.replicate m' '_' ++ b) := by
        simp [List.replicate_succ]
      have h3 : collapseU ('_' :: '_' :: (List.replicate m' '_' ++ b)) =
          collapseU ('_' :: (List.replicate m' '_' ++ b)) := by
        simp [collapseU]
      have h4 : ('_' : Char) :: (List.replicate m' '_' ++ b) =
          List.replicate (m' + 1) '_' ++ b := by
        simp [List.replicate_succ]
      rw [h2, h3, h4]
      exact hrec

theorem dropU_eq_self {l : List Char}
    (h : ∀ c, l.head? = some c → (c == '_') = false) :
    l.dropWhile (fun c => c == '_') = l := by
  cases l with
  | nil => rfl
  | cons a t =>
    rw [List.dropWhile_cons, if_neg]
    simp [h a rfl]

theorem stripU_eq_self {l : List Char}
    (h1 : ∀ c, l.head? = some c → (c == '_') = false)
    (h2 : ∀ c, l.getLast? = some c → (c == '_') = false) : stripU l = l := by
  unfold stripU
  rw [dropU_eq_self h1]
  rw [dropU_eq_self (by rw [List.head?_reverse]; exact h2)]
  exact List.reverse_reverse l

theorem mem_of_mem_stripU {c : Char} {l : List Char} (h : c ∈ stripU l) : c ∈ l := by
  unfold stripU at h
  rw [List.mem_reverse] at h
  have h2 := (List.dropWhile_sublist _).subset h
  rw [List.mem_reverse] at h2
  exact (List.dropWhile_sublist _).subset h2

theorem processStem_allowed (nfkd : List Char → List Char) (s : List Char) :
    ∀ c ∈ processStem nfkd s, isAllowedChar c = true := by
  intro c hc
  unfold processStem at hc
  have h1 := mem_of_mem_stripU hc
  have h2 := (collapseU_sublist _).subset h1
  exact (List.mem_filter.mp h2).2

theorem natDigitsAux_digits (fuel : ℕ) :
    ∀ n, ∀ c ∈ natDigitsAux fuel n, isAsciiAlphaNum c = true := by
  induction fuel with
  | zero => intro n c hc; simp [natDigitsAux] at hc
  | succ f ih =>
    intro n c hc
    cases n with
    | zero => simp [natDigitsAux] at hc
    | succ m =>
      rw [natDigitsAux] at hc
      rcases List.mem_append.mp hc with h | h
      · exact ih _ c h
      · have hd : (m + 1) % 10 < 10 := Nat.mod_lt _ (by norm_num)
        rcases List.mem_singleton.mp h with rfl
        set d := (m + 1) % 10 with hdd
        clear hdd hc
        interval_cases d <;> decide

theorem pad3_allowed (n : ℕ) : ∀ c ∈ pad3 n, isAllowedChar c = true := by
  intro c hc
  unfold pad3 at hc
  rcases List.mem_append.mp hc with h | h
  · rcases List.eq_of_mem_replicate h with rfl; decide
  · unfold natDecimal at h
    by_cases h0 : n = 0
    · rw [if_pos h0] at h
      rcases List.mem_singleton.mp h with rfl; decide
    · rw [if_neg h0] at h
      exact alnum_allowed (natDigitsAux_digits n n c h)

/-- Structure of every `normalize_name` output: a nonempty stem part over
`[a-zA-Z0-9_]` followed verbatim by the lower-cased extension. -/
theorem normalize_stem_spec (nfkd : List Char → List Char) (name : List Char)
    (counter : ℕ) :
    ∃ s, normalize_name nfkd name counter = s ++ (splitExt name).2.map Char.toLower ∧
      s ≠ [] ∧ ∀ c ∈ s, isAllowedChar c = true := by
  unfold normalize_name
  by_cases h5 : (processStem nfkd (splitExt name).1).isEmpty = true
  · refine ⟨unnamedLit ++ '_' :: pad3 counter, by simp [h5], by simp [unnamedLit], ?_⟩
    intro c hc
    rcases List.mem_append.mp hc with h | h
    · revert h; unfold unnamedLit
      intro h
      fin_cases h <;> decide
    · rcases List.mem_cons.mp h with rfl | h
      · decide
      · exact pad3_allowed counter c h
  · have h5' : processStem nfkd (splitExt name).1 ≠ [] := by
      simpa [List.isEmpty_iff] using h5
    by_cases hc0 : 0 < counter
    · refine ⟨processStem nfkd (splitExt name).1 ++ '_' :: pad3 counter,
        by simp [h5, hc0], List.append_ne_nil_of_left_ne_nil h5' _, ?_⟩
      intro c hc
      rcases List.mem_append.mp hc with h | h
      · exact processStem_allowed nfkd _ c h
      · rcases List.mem_cons.mp h with rfl | h
        · decide
        · exact pad3_allowed counter c h
    · exact ⟨processStem nfkd (splitExt name).1, by simp [h5, hc0], h5',
        processStem_allowed nfkd _⟩

/-- The output pattern holds for any nonempty allowed-charset stem part
followed by an extension matching the extension pattern. -/
theorem matchesNamePat_append {s e : List Char} (hne : s ≠ [])
    (hall : ∀ c ∈ s, isAllowedChar c = true) (he : matchesExtPat e = true) :
    matchesNamePat (s ++ e) = true := by
  unfold matchesNamePat
  cases e with
  | nil =>
    rw [List.append_nil]
    have ht : s.takeWhile isAllowedChar = s := List.takeWhile_eq_self_iff.mpr hall
    simp [ht, List.drop_length, matchesExtPat, hne]
  | cons e0 r =>
    have he0 : e0 = '.' := by
      have := (Bool.and_eq_true _ _).mp ((Bool.and_eq_true _ _).mp he).1
      exact beq_iff_eq.mp this.1
    subst he0
    have hdot : isAllowedChar '.' = false := by decide
    have ht : (s ++ '.' :: r).takeWhile isAllowedChar = s := by
      rw [List.takeWhile_append_of_pos hall, List.takeWhile_cons, hdot]
      simp
    have hd : (s ++ '.' :: r).drop s.length = '.' :: r := List.drop_left s ('.' :: r)
    simp [ht, hd, hne, he]

/-- The first and last characters of `a ++ '_' :: b` (for nonempty
alphanumeric `a`, `b`) are alphanumeric, so the final strip is a no-op. -/
theorem stripU_sandwich {a b : List Char}
    (ha0 : a ≠ []) (ha : ∀ c ∈ a, isAsciiAlphaNum c = true)
    (hb0 : b ≠ []) (hb : ∀ c ∈ b, isAsciiAlphaNum c = true) (mid : List Char) :
    stripU (a ++ mid ++ b) = a ++ mid ++ b := by
  apply stripU_eq_self
  · intro c hc
    rw [List.append_assoc, List.head?_append_of_ne_nil a ha0] at hc
    exact alnum_ne_underscore (ha c (List.mem_of_mem_head? (by rw [hc]; rfl)))
  · intro c hc
    rw [List.getLast?_append, List.getLast?_eq_getLast b hb0, Option.or_some] at hc
    have hcc : b.getLast hb0 = c := Option.some.inj hc
    rw [← hcc]
    exact alnum_ne_underscore (hb _ (List.getLast_mem hb0))

/-- The cleaned stem of `a ++ spaces^k ++ b` (`a`, `b` nonempty
alphanumeric, `k ≥ 1`): each space turns into an underscore, the run
collapses to one, and stripping changes nothing. -/
theorem processStem_space {a b : List Char} {k : ℕ}
    (ha0 : a ≠ []) (ha : ∀ c ∈ a, isAsciiAlphaNum c = true)
    (hb0 : b ≠ []) (hb : ∀ c ∈ b, isAsciiAlphaNum c = true) (hk : 1 ≤ k) :
    processStem id (a ++ List.replicate k ' ' ++ b) = a ++ '_' :: b := by
  unfold processStem
  have hma : a.map (fun c => if c == ' ' then '_' else c) = a := by
    have h1 : a.map (fun c => if c == ' ' then '_' else c) = a.map id :=
      List.map_congr_left (fun c hc => by simp [alnum_ne_space (ha c hc)])
    rw [h1, List.map_id]
  have hmb : b.map (fun c => if c == ' ' then '_' else c) = b := by
    have h1 : b.map (fun c => if c == ' ' then '_' else c) = b.map id :=
      List.map_congr_left (fun c hc => by simp [alnum_ne_space (hb c hc)])
    rw [h1, List.map_id]
  have hmap : (a ++ List.replicate k ' ' ++ b).map (fun c => if c == ' ' then '_' else c)
      = a ++ List.replicate k '_' ++ b := by
    rw [List.map_append, List.map_append, List.map_replicate, hma, hmb]
    rfl
  have hfil : (a ++ List.replicate k '_' ++ b).filter isAllowedChar
      = a ++ List.replicate k '_' ++ b := by
    refine List.filter_eq_self.mpr (fun c hc => ?_)
    rcases List.mem_append.mp hc with h | h
    · rcases List.mem_append.mp h with h2 | h2
      · exact alnum_allowed (ha c h2)
      · rcases List.eq_of_mem_replicate h2 with rfl; decide
    · exact alnum_allowed (hb c h)
  have hcol : collapseU (a ++ List.replicate k '_' ++ b) = a ++ '_' :: b := by
    rw [List.append_assoc, collapseU_append_alnum ha, collapseU_replicate hb k hk]
  have hstr : stripU (a ++ '_' :: b) = a ++ '_' :: b := by
    have := stripU_sandwich ha0 ha hb0 hb ['_']
    simpa using this
  simp only [id_eq, hmap, hfil, hcol, hstr]

/-- The cleaned stem of `a ++ tab ++ b`: the tab is not replaced (only
U+0020 is), so the charset filter deletes it and the parts fuse. -/
theorem processStem_tab {a b : List Char}
    (ha0 : a ≠ []) (ha : ∀ c ∈ a, isAsciiAlphaNum c = true)
    (hb0 : b ≠ []) (hb : ∀ c ∈ b, isAsciiAlphaNum c = true) :
    processStem id (a ++ '\t' :: b) = a ++ b := by
  unfold processStem
  have hma : a.map (fun c => if c == ' ' then '_' else c) = a := by
    have h1 : a.map (fun c => if c == ' ' then '_' else c) = a.map id :=
      List.map_congr_left (fun c hc => by simp [alnum_ne_space (ha c hc)])
    rw [h1, List.map_id]
  have hmb : b.map (fun c => if c == ' ' then '_' else c) = b := by
    have h1 : b.map (fun c => if c == ' ' then '_' else c) = b.map id :=
      List.map_congr_left (fun c hc => by simp [alnum_ne_space (hb c hc)])
    rw [h1, List.map_id]
  have hmap : (a ++ '\t' :: b).map (fun c => if c == ' ' then '_' else c)
      = a ++ '\t' :: b := by
    rw [List.map_append, List.map_cons, hma, hmb]
    rfl
  have hfa : a.filter isAllowedChar = a :=
    List.filter_eq_self.mpr (fun c hc => alnum_allowed (ha c hc))
  have hfb : b.filter isAllowedChar = b :=
    List.filter_eq_self.mpr (fun c hc => alnum_allowed (hb c hc))
  have hfil : (a ++ '\t' :: b).filter isAllowedChar = a ++ b := by
    rw [List.filter_append, List.filter_cons, if_neg (by decide), hfa, hfb]
  have hcol : collapseU (a ++ b) = a ++ b := by
    rw [collapseU_append_alnum ha, collapseU_alnum hb]
  have hstr : stripU (a ++ b) = a ++ b := by
    have := stripU_sandwich ha0 ha hb0 hb []
    simpa using this
  simp only [id_eq, hmap, hfil, hcol, hstr]

/-! ### Claims C1, C2, C6: name normalization -/

/-- C1 counterexample: for the input `"a.b-c"` (suffix `".b-c"`), the
output of `normalize` is `"a.b-c"`, which does not match
`^[a-zA-Z0-9_]+(\.[a-z0-9]+)?$` — the hyphen survives inside the
extension, which is appended verbatim without charset filtering. -/
theorem c1_counterexample :
    matchesNamePat (normalize_name id "a.b-c".toList 0) = false := by decide

/-- C1 (amended): the output of `normalize` is always nonempty and its
stem part always matches `[a-zA-Z0-9_]+`; the full pattern
`^[a-zA-Z0-9_]+(\.[a-z0-9]+)?$` is guaranteed whenever the lower-cased
extension itself matches `(\.[a-z0-9]+)?` — the extension is appended
verbatim, so for extensions with characters outside `[a-z0-9]` the
pattern can fail. -/
theorem c1_charset (nfkd : List Char → List Char) (name : List Char) (counter : ℕ)
    (hext : matchesExtPat ((splitExt name).2.map Char.toLower) = true) :
    normalize_name nfkd name counter ≠ [] ∧
    matchesNamePat (normalize_name nfkd name counter) = true := by
  obtain ⟨s, heq, hne, hall⟩ := normalize_stem_spec nfkd name counter
  rw [heq]
  exact ⟨List.append_ne_nil_of_left_ne_nil hne _, matchesNamePat_append hne hall hext⟩

/-- C1 witness: `normalize("Kick Drum.WAV", 5) = "Kick_Drum_005.wav"` is
nonempty and matches the pattern. -/
theorem c1_witness :
    matchesExtPat ((splitExt "Kick Drum.WAV".toList).2.map Char.toLower) = true ∧
    (normalize_name id "Kick Drum.WAV".toList 5 ≠ [] ∧
      matchesNamePat (normalize_name id "Kick Drum.WAV".toList 5) = true) :=
  ⟨by decide, c1_charset id "Kick Drum.WAV".toList 5 (by decide)⟩

/-- C2 counterexample: `normalize("_.wav", 0)` is `"unnamed_000.wav"`, not
the claimed `"unnamed.wav"` — the empty-stem fallback is the literal
`unnamed_{counter:03d}`, which carries the zero-padded counter even at
counter 0. -/
theorem c2_counterexample :
    normalize_name id "_.wav".toList 0 = "unnamed_000.wav".toList ∧
    normalize_name id "_.wav".toList 0 ≠ "unnamed.wav".toList := by decide

/-- C2 (amended): whenever the cleaned stem is empty, `normalize` at
counter 0 returns `"unnamed_000"` followed by the lower-cased extension. -/
theorem c2_fallback (nfkd : List Char → List Char) (name : List Char)
    (h : processStem nfkd (splitExt name).1 = []) :
    normalize_name nfkd name 0 =
      "unnamed_000".toList ++ (splitExt name).2.map Char.toLower := by
  simp only [normalize_name, h, List.isEmpty_nil, if_true]
  rw [show unnamedLit ++ '_' :: pad3 0 = "unnamed_000".toList by decide]

/-- C2 witness: the amended fallback at the concrete input `"_.wav"`. -/
theorem c2_witness :
    processStem id (splitExt "_.wav".toList).1 = [] ∧
    normalize_name id "_.wav".toList 0 =
      "unnamed_000".toList ++ (splitExt "_.wav".toList).2.map Char.toLower :=
  ⟨by decide, c2_fallback id "_.wav".toList (by decide)⟩

/-- C6 counterexample: the stem `"a<TAB>b"` normalizes to `"ab"`, not the
claimed `"a_b"` — only the space character U+0020 is replaced by an
underscore; a tab is removed by the charset filter instead. -/
theorem c6_counterexample :
    normalize_name id ['a', '\t', 'b'] 0 = ['a', 'b'] ∧
    normalize_name id ['a', '\t', 'b'] 0 ≠ ['a', '_', 'b'] := by decide

/-- C6 (amended): a run of `k ≥ 1` space characters (U+0020) between
alphanumeric parts becomes exactly one underscore (replacement plus the
underscore-run collapse), but a tab — or any non-space whitespace — is
deleted by the charset filter rather than replaced, so `"a<TAB>b"`
normalizes to `"ab"` while `"a b"` normalizes to `"a_b"`. -/
theorem c6_space_vs_tab (a b : List Char) (k : ℕ)
    (ha0 : a ≠ []) (ha : ∀ c ∈ a, isAsciiAlphaNum c = true)
    (hb0 : b ≠ []) (hb : ∀ c ∈ b, isAsciiAlphaNum c = true) (hk : 1 ≤ k) :
    normalize_name id (a ++ List.replicate k ' ' ++ b) 0 = a ++ '_' :: b ∧
    normalize_name id (a ++ '\t' :: b) 0 = a ++ b := by
  have hadot : ∀ c ∈ a, (c != '.') = true := fun c hc => alnum_ne_dot (ha c hc)
  have hbdot : ∀ c ∈ b, (c != '.') = true := fun c hc => alnum_ne_dot (hb c hc)
  constructor
  · have hs : splitExt (a ++ List.replicate k ' ' ++ b) =
        (a ++ List.replicate k ' ' ++ b, []) := by
      refine splitExt_no_dot (fun c hc => ?_)
      rcases List.mem_append.mp hc with h | h
      · rcases List.mem_append.mp h with h2 | h2
        · exact hadot c h2
        · rcases List.eq_of_mem_replicate h2 with rfl; decide
      · exact hbdot c h
    have hne : a ++ '_' :: b ≠ [] := List.append_ne_nil_of_left_ne_nil ha0 _
    simp only [normalize_name, hs, List.map_nil, List.append_nil,
      processStem_space ha0 ha hb0 hb hk]
    simp [List.isEmpty_iff, hne]
  · have hs : splitExt (a ++ '\t' :: b) = (a ++ '\t' :: b, []) := by
      refine splitExt_no_dot (fun c hc => ?_)
      rcases List.mem_append.mp hc with h | h
      · exact hadot c h
      · rcases List.mem_cons.mp h with rfl | h2
        · decide
        · exact hbdot c h2
    have hne : a ++ b ≠ [] := List.append_ne_nil_of_left_ne_nil ha0 _
    simp only [normalize_name, hs, List.map_nil, List.append_nil,
      processStem_tab ha0 ha hb0 hb]
    simp [List.isEmpty_iff, hne]

/-- C6 witness: `"a  b"` (two spaces) normalizes to `"a_b"` and
`"a<TAB>b"` to `"ab"`. -/
theorem c6_witness :
    (['a'] ≠ [] ∧ ['b'] ≠ [] ∧ (1 : ℕ) ≤ 2) ∧
    normalize_name id (['a'] ++ List.replicate 2 ' ' ++ ['b']) 0 = ['a'] ++ '_' :: ['b'] ∧
    normalize_name id (['a'] ++ '\t' :: ['b']) 0 = ['a'] ++ ['b'] :=
  ⟨⟨by decide, by decide, by decide⟩,
    c6_space_vs_tab ['a'] ['b'] 2 (by decide) (by decide) (by decide) (by decide)
      (by decide)⟩

/-! ### Helper lemmas: peak normalization and quantization -/

theorem le_foldr_max {x : ℚ} {l : List ℚ} (h : x ∈ l) : x ≤ l.foldr max 0 := by
  induction l with
  | nil => cases h
  | cons y t ih =>
    rcases List.mem_cons.mp h with rfl | h2
    · exact le_max_left _ _
    · exact le_max_of_le_right (ih h2)

theorem foldr_max_zeros {l : List ℚ} (h : ∀ x ∈ l, x = 0) : l.foldr max 0 = 0 := by
  induction l with
  | nil => rfl
  | cons y t ih =>
    rw [List.foldr_cons, h y (by simp), ih (fun x hx => h x (by simp [hx]))]
    simp

theorem abs_le_absMax {x : ℚ} {l : List ℚ} (h : x ∈ l) : |x| ≤ absMax l := by
  induction l with
  | nil => cases h
  | cons y t ih =>
    rcases List.mem_cons.mp h with rfl | h2
    · exact le_max_left _ _
    · exact le_max_of_le_right (ih h2)

theorem absMax_zeros {l : List ℚ} (h : ∀ x ∈ l, x = 0) : absMax l = 0 := by
  unfold absMax
  induction l with
  | nil => rfl
  | cons y t ih =>
    rw [List.foldr_cons, h y (by simp), ih (fun x hx => h x (by simp [hx]))]
    simp

theorem le_peakOf {chs : List (List ℚ)} {ch : List ℚ} {x : ℚ}
    (hch : ch ∈ chs) (hx : x ∈ ch) : |x| ≤ peakOf chs :=
  le_trans (abs_le_absMax hx) (le_foldr_max (List.mem_map_of_mem absMax hch))

theorem peakOf_eq_zero {chs : List (List ℚ)}
    (h : ∀ ch ∈ chs, ∀ x ∈ ch, x = 0) : peakOf chs = 0 := by
  unfold peakOf
  refine foldr_max_zeros (fun x hx => ?_)
  rcases List.mem_map.mp hx with ⟨ch, hch, rfl⟩
  exact absMax_zeros (h ch hch)

/-- After peak normalization every sample has magnitude at most 0.95:
in the scaling branch `|x / peak| ≤ 1`, and in the skip branch the peak —
an upper bound of every `|x|` — is not positive, so all samples are 0. -/
theorem scaleData_abs_le (a : AudioData) :
    ∀ ch ∈ (scaleData a).channels, ∀ x ∈ ch, |x| ≤ 19 / 20 := by
  intro ch hch x hx
  simp only [scaleData] at hch
  by_cases hp : 0 < peakOf a.channels
  · rw [if_pos hp] at hch
    simp only [List.mem_map] at hch
    obtain ⟨ch0, hch0, rfl⟩ := hch
    simp only [List.mem_map] at hx
    obtain ⟨x0, hx0, rfl⟩ := hx
    have hb := le_peakOf hch0 hx0
    have h1 : |x0 / peakOf a.channels| ≤ 1 := by
      rw [abs_div, abs_of_pos hp]
      exact div_le_one_of_le₀ hb (le_of_lt hp)
    have h2 : |x0 / peakOf a.channels * (19 / 20)| =
        |x0 / peakOf a.channels| * (19 / 20) := by
      rw [abs_mul, abs_of_pos (by norm_num : (0 : ℚ) < 19 / 20)]
    rw [h2]
    have := mul_le_mul_of_nonneg_right h1 (by norm_num : (0 : ℚ) ≤ 19 / 20)
    simpa using this
  · rw [if_neg hp] at hch
    have hb := le_peakOf hch hx
    have h0 : |x| ≤ 0 := le_trans hb (le_of_not_lt hp)
    have := abs_nonneg x
    have hx0 : |x| = 0 := le_antisymm h0 this
    rw [hx0]
    norm_num

theorem ratTrunc_bounds {q : ℚ} (h : |q| ≤ 19 / 20) :
    -31128 ≤ ratTrunc (q * 32767) ∧ ratTrunc (q * 32767) ≤ 31128 := by
  have hub : q * 32767 ≤ 622573 / 20 := by
    have hq := le_trans (le_abs_self q) h
    nlinarith
  have hlb : -(622573 / 20) ≤ q * 32767 := by
    have hq := (abs_le.mp h).1
    nlinarith
  unfold ratTrunc
  by_cases h0 : 0 ≤ q * 32767
  · rw [if_pos h0]
    constructor
    · have := Int.floor_nonneg.mpr h0
      omega
    · have hlt : ⌊q * 32767⌋ < 31129 :=
        Int.floor_lt.mpr (lt_of_le_of_lt hub (by norm_num))
      omega
  · rw [if_neg h0]
    constructor
    · have hge : -31129 < ⌈q * 32767⌉ := by
        have h1 : (-31129 : ℚ) < q * 32767 := lt_of_lt_of_le (by norm_num) hlb
        have h2 := Int.le_ceil (q * 32767)
        exact_mod_cast lt_of_lt_of_le h1 h2
      omega
    · have hle : ⌈q * 32767⌉ ≤ 0 :=
        Int.ceil_le.mpr (by push_cast; exact le_of_lt (lt_of_not_ge h0))
      omega

theorem wrap16_eq_self {z : ℤ} (h1 : -32768 ≤ z) (h2 : z ≤ 32767) : wrap16 z = z := by
  unfold wrap16
  omega

theorem toInt16_eq_trunc {x : ℚ} (h : |x| ≤ 19 / 20) :
    toInt16 x = ratTrunc (x * 32767) := by
  obtain ⟨h1, h2⟩ := ratTrunc_bounds h
  exact wrap16_eq_self (by omega) (by omega)

theorem toInt16_zero : toInt16 0 = 0 := by
  unfold toInt16 ratTrunc wrap16
  norm_num

theorem scaleData_length (b : AudioData) :
    (scaleData b).channels.length = b.channels.length := by
  simp only [scaleData]
  split
  · simp
  · rfl

theorem resampleData_length (res : List ℚ → ℕ → List ℚ) (a : AudioData) :
    (resampleData res a).channels.length = a.channels.length := by
  simp only [resampleData]
  split
  · rfl
  · simp

/-! ### Claims C3, C4, C5, C9: audio conversion -/

/-- C3 counterexample: for the one-sample input `[1]` at 44100 Hz the
peak-normalized sample is `0.95` and the written 16-bit value is `31128 =
trunc(0.95·32767)`, while the claimed `round(0.95·32767)` clamped is
`31129` (`0.95·32767 = 31128.65` is not a half-integer, so every rounding
convention gives 31129) — quantization truncates, it does not round. -/
theorem c3_counterexample :
    (convert_audio_file (fun l _ => l) ⟨44100, [[1]]⟩).channels = [[31128]] ∧
    (scaleData (resampleData (fun l _ => l) ⟨44100, [[1]]⟩)).channels = [[19 / 20]] ∧
    clampRound16 (19 / 20) = 31129 := by
  refine ⟨?_, ?_, ?_⟩
  · simp [convert_audio_file, scaleData, resampleData, chooseTargetRate, nsamples,
      peakOf, absMax, toInt16, ratTrunc, wrap16]
    norm_num
  · norm_num [scaleData, resampleData, chooseTargetRate, nsamples, peakOf, absMax]
  · unfold clampRound16
    norm_num

/-- C3 (amended): every quantized sample is the truncation toward zero of
`scaledSample · 32767` (the numpy `astype(np.int16)` cast), not a rounding;
because the scaled samples satisfy `|s| ≤ 0.95`, the truncated values lie
in `[-31128, 31128]`, so the signed 16-bit range is never exceeded and
neither clamping nor wraparound occurs. -/
theorem c3_truncation (res : List ℚ → ℕ → List ℚ) (a : AudioData) :
    (convert_audio_file res a).channels =
      (scaleData (resampleData res a)).channels.map
        (List.map (fun x => ratTrunc (x * 32767))) ∧
    ((convert_audio_file res a).channels.all
      (fun ch => ch.all (fun y => decide (-32768 ≤ y) && decide (y ≤ 32767)))) = true := by
  have hbound := scaleData_abs_le (resampleData res a)
  constructor
  · show (scaleData (resampleData res a)).channels.map (List.map toInt16) = _
    refine List.map_congr_left (fun ch hch => ?_)
    refine List.map_congr_left (fun x hx => ?_)
    exact toInt16_eq_trunc (hbound ch hch x hx)
  · rw [List.all_eq_true]
    intro ch hch
    simp only [convert_audio_file, List.mem_map] at hch
    obtain ⟨ch0, hch0, rfl⟩ := hch
    rw [List.all_eq_true]
    intro y hy
    simp only [List.mem_map] at hy
    obtain ⟨x0, hx0, rfl⟩ := hy
    have hb := hbound ch0 hch0 x0 hx0
    obtain ⟨h1, h2⟩ := ratTrunc_bounds hb
    rw [toInt16_eq_trunc hb]
    simp only [Bool.and_eq_true, decide_eq_true_eq]
    omega

/-- C4 counterexample: 2 samples at 32000 Hz resample toward 44100 Hz
(the nearer supported rate) into `int(2·44100/32000) = int(2.75625) = 2`
samples, while the claimed `round(2·44100/32000)` is 3 — the code
truncates the ratio, it does not round. -/
theorem c4_counterexample :
    chooseTargetRate 32000 = 44100 ∧
    (resampleData (fun _ n => List.replicate n 0) ⟨32000, [[0, 0]]⟩).channels
      = [[0, 0]] ∧
    specRound ((2 * 44100 : ℚ) / 32000) = 3 := by
  refine ⟨by decide, ?_, ?_⟩
  · simp [resampleData, chooseTargetRate, nsamples, List.replicate]
  · unfold specRound
    norm_num

/-- C4 (amended): when the selected target rate differs from the input
rate, every channel is resampled to exactly
`⌊n · targetRate / inputRate⌋` samples (truncated, not rounded), and this
count differs from `round(n · targetRate / inputRate)` by at most 1 —
within the tolerance the spec's testable-properties section allows. -/
theorem c4_floor_count (res : List ℚ → ℕ → List ℚ) (a : AudioData)
    (hres : ∀ l n, (res l n).length = n)
    (hne : a.sampleRate ≠ chooseTargetRate a.sampleRate) (hsr : 0 < a.sampleRate) :
    ((resampleData res a).channels.all (fun ch =>
        ch.length == nsamples a * chooseTargetRate a.sampleRate / a.sampleRate)) = true ∧
    (((nsamples a * chooseTargetRate a.sampleRate / a.sampleRate : ℕ) : ℤ) -
        specRound (((nsamples a * chooseTargetRate a.sampleRate : ℕ) : ℚ) /
          ((a.sampleRate : ℕ) : ℚ))).natAbs ≤ 1 := by
  constructor
  · rw [List.all_eq_true]
    intro ch hch
    simp only [resampleData, if_neg hne, List.mem_map] at hch
    obtain ⟨ch0, _, rfl⟩ := hch
    simp [hres]
  · set n := nsamples a * chooseTargetRate a.sampleRate with hn
    set s := a.sampleRate with hs
    set K := n / s with hK
    have hs0 : (0 : ℚ) < (s : ℚ) := by exact_mod_cast hsr
    have h1 : K * s ≤ n := by
      rw [hK]
      exact Nat.div_mul_le_self n s
    have h2 : n < (K + 1) * s := by
      have hmod := Nat.mod_lt n hsr
      have hdm := Nat.div_add_mod n s
      rw [hK]
      calc n = s * (n / s) + n % s := hdm.symm
        _ < s * (n / s) + s := by omega
        _ = (n / s + 1) * s := by ring
    have hq1 : (K : ℚ) ≤ (n : ℚ) / (s : ℚ) := by
      rw [le_div_iff₀ hs0]
      exact_mod_cast h1
    have hq2 : (n : ℚ) / (s : ℚ) < (K : ℚ) + 1 := by
      rw [div_lt_iff₀ hs0]
      have hcast : ((K + 1 : ℕ) : ℚ) * (s : ℚ) = ((K : ℚ) + 1) * (s : ℚ) := by
        push_cast
        ring
      rw [← hcast]
      exact_mod_cast h2
    have hfl : (K : ℤ) ≤ specRound ((n : ℚ) / (s : ℚ)) := by
      unfold specRound
      apply Int.le_floor.mpr
      push_cast
      linarith
    have hfu : specRound ((n : ℚ) / (s : ℚ)) < (K : ℤ) + 2 := by
      unfold specRound
      apply Int.floor_lt.mpr
      push_cast
      linarith
    omega

/-- C4 witness: the amended count at 2 samples, 32000 Hz → 44100 Hz:
the code produces `⌊2.75625⌋ = 2` samples, and `|2 - round(2.75625)| =
|2 - 3| = 1 ≤ 1`. -/
theorem c4_witness :
    ((32000 : ℕ) ≠ chooseTargetRate 32000 ∧ (0 : ℕ) < 32000) ∧
    (((resampleData (fun _ n => List.replicate n 0) ⟨32000, [[0, 0]]⟩).channels.all
        (fun ch => ch.length ==
          nsamples (AudioData.mk 32000 [[0, 0]]) * chooseTargetRate 32000 / 32000)) = true ∧
      (((nsamples (AudioData.mk 32000 [[0, 0]]) * chooseTargetRate 32000 / 32000 : ℕ) : ℤ) -
          specRound (((nsamples (AudioData.mk 32000 [[0, 0]]) *
            chooseTargetRate 32000 : ℕ) : ℚ) / ((32000 : ℕ) : ℚ))).natAbs ≤ 1) :=
  ⟨⟨by decide, by decide⟩,
    c4_floor_count (fun _ n => List.replicate n 0) ⟨32000, [[0, 0]]⟩
      (fun l n => List.length_replicate n 0) (by decide) (by decide)⟩

/-- C5 counterexample: the SMB variant `convert_audio_file`
(`roland_sp404_automation.py`) downmixes the stereo input `[[1], [0]]` to a
single channel — its output has 1 channel where the input has 2, a forced
mono downmix. -/
theorem c5_counterexample :
    (convert_audio_file_smb (fun l _ => l) ⟨44100, [[1], [0]]⟩).channels.length = 1 ∧
    (AudioData.mk 44100 [[1], [0]]).channels.length = 2 := by
  constructor
  · simp [convert_audio_file_smb, scaleData_length, resampleData, chooseTargetRate]
  · rfl

/-- C5 (amended): the local variant `convert_audio_file`
(`roland_sp404_local_automation.py`) preserves the channel count for every
input and every resampler — mono stays mono, stereo stays stereo; the SMB
variant instead force-downmixes multi-channel input to mono. -/
theorem c5_local_preserves (res : List ℚ → ℕ → List ℚ) (a : AudioData) :
    (convert_audio_file res a).channels.length = a.channels.length := by
  simp only [convert_audio_file, List.length_map]
  rw [scaleData_length, resampleData_length]

/-- C9: a fully silent input converts with the scaling step skipped — the
peak is exactly 0, so the division-by-zero guard takes the no-scaling
branch — and the quantized output is all zeros. -/
theorem c9_silent (res : List ℚ → ℕ → List ℚ) (a : AudioData)
    (hres : ∀ l n, (∀ x ∈ l, x = (0 : ℚ)) → ∀ y ∈ res l n, y = 0)
    (hsil : (a.channels.all (fun ch => ch.all (fun x => x == 0))) = true) :
    peakOf (resampleData res a).channels = 0 ∧
    scaleData (resampleData res a) = resampleData res a ∧
    ((convert_audio_file res a).channels.all
      (fun ch => ch.all (fun y => y == 0))) = true := by
  have hsil' : ∀ ch ∈ a.channels, ∀ x ∈ ch, x = (0 : ℚ) := by
    intro ch hch x hx
    have h1 := List.all_eq_true.mp hsil ch hch
    exact beq_iff_eq.mp (List.all_eq_true.mp h1 x hx)
  have hzero : ∀ ch ∈ (resampleData res a).channels, ∀ x ∈ ch, x = (0 : ℚ) := by
    intro ch hch x hx
    simp only [resampleData] at hch
    by_cases he : a.sampleRate = chooseTargetRate a.sampleRate
    · rw [if_pos he] at hch
      exact hsil' ch hch x hx
    · rw [if_neg he] at hch
      simp only [List.mem_map] at hch
      obtain ⟨ch0, hch0, rfl⟩ := hch
      exact hres ch0 _ (hsil' ch0 hch0) x hx
  have hpeak : peakOf (resampleData res a).channels = 0 := peakOf_eq_zero hzero
  have hscale : scaleData (resampleData res a) = resampleData res a := by
    simp only [scaleData, hpeak]
    norm_num
  refine ⟨hpeak, hscale, ?_⟩
  rw [List.all_eq_true]
  intro ch hch
  simp only [convert_audio_file] at hch
  rw [hscale] at hch
  simp only [List.mem_map] at hch
  obtain ⟨ch0, hch0, rfl⟩ := hch
  rw [List.all_eq_true]
  intro y hy
  simp only [List.mem_map] at hy
  obtain ⟨x0, hx0, rfl⟩ := hy
  rw [hzero ch0 hch0 x0 hx0, toInt16_zero]
  rfl

/-- C9 witness: silent two-sample input at 22050 Hz (which forces a
resample to 44100 Hz): the peak is 0, scaling is skipped, the output is
silent. -/
theorem c9_witness :
    ((AudioData.mk 22050 [[0, 0]]).channels.all
      (fun ch => ch.all (fun x => x == (0 : ℚ)))) = true ∧
    (peakOf (resampleData (fun _ n => List.replicate n 0)
        (AudioData.mk 22050 [[0, 0]])).channels = 0 ∧
      scaleData (resampleData (fun _ n => List.replicate n 0)
          (AudioData.mk 22050 [[0, 0]])) =
        resampleData (fun _ n => List.replicate n 0) (AudioData.mk 22050 [[0, 0]]) ∧
      ((convert_audio_file (fun _ n => List.replicate n 0)
          (AudioData.mk 22050 [[0, 0]])).channels.all
        (fun ch => ch.all (fun y => y == 0))) = true) :=
  ⟨by simp, c9_silent (fun _ n => List.replicate n 0) (AudioData.mk 22050 [[0, 0]])
    (fun l n _ y hy => List.eq_of_mem_replicate hy) (by simp)⟩

/-! ### Claims C7, C8, C10: the directory orchestrator -/

/-- C7: a conversion failure on a qualifying `.wav` entry neither halts
the directory traversal — the loop continues with exactly the remaining
entries — nor consumes a uniqueness slot: the counter passed to the rest
of the loop is unchanged. -/
theorem c7_failure_isolated (nfkd : List Char → List Char) (ok : List Char → Bool)
    (name : List Char) (rest : List FSItem) (c : ℕ)
    (hwav : isWavName name = true) (hfail : ok name = false) :
    processItems nfkd ok (FSItem.file name :: rest) c =
      OutAction.failed name :: processItems nfkd ok rest c := by
  simp [processItems, hwav, hfail]

/-- C7 witness: a failing `"bad.wav"` is logged and its sibling is still
processed with the counter still at 0. -/
theorem c7_witness :
    isWavName "bad.wav".toList = true ∧
    (fun (_ : List Char) => false) "bad.wav".toList = false ∧
    processItems id (fun _ => false)
        [FSItem.file "bad.wav".toList, FSItem.file "good.wav".toList] 0 =
      OutAction.failed "bad.wav".toList ::
        processItems id (fun _ => false) [FSItem.file "good.wav".toList] 0 :=
  ⟨by decide, rfl,
    c7_failure_isolated id (fun _ => false) "bad.wav".toList
      [FSItem.file "good.wav".toList] 0 (by decide) rfl⟩

/-- C8: the per-directory counter is arena-per-call.  Processing a
subdirectory entry normalizes the directory name with counter 0 whatever
the current file counter is, recurses via `process_directory` — whose
counter starts at 0 — and continues with the siblings at the unchanged
file counter, so counters of different directory levels cannot interact. -/
theorem c8_counter_scoped (nfkd : List Char → List Char) (ok : List Char → Bool)
    (dname : List Char) (sub rest : List FSItem) (c : ℕ) :
    processItems nfkd ok (FSItem.dir dname sub :: rest) c =
      OutAction.subdir (normalize_name nfkd dname 0) (process_directory nfkd ok sub) ::
        processItems nfkd ok rest c := by
  simp [processItems, process_directory]

/-- C10: in a directory of two qualifying `.wav` files that both convert
successfully, the first is written with counter 0 and the second with
counter 1 — the counter advances on every success, regardless of whether
the normalized stems would already be distinct. -/
theorem c10_counter_advances (nfkd : List Char → List Char) (ok : List Char → Bool)
    (f g : List Char)
    (hf : isWavName f = true) (hg : isWavName g = true)
    (hof : ok f = true) (hog : ok g = true) :
    process_directory nfkd ok [FSItem.file f, FSItem.file g] =
      [OutAction.wrote (normalize_name nfkd f 0),
        OutAction.wrote (normalize_name nfkd g 1)] := by
  simp [process_directory, processItems, hf, hg, hof, hog]

/-- C10 witness: distinct stems `"kick"` and `"snare"` still yield
`"kick.wav"` and `"snare_001.wav"` — the second file gets the `_001`
suffix even though the names would be unique without it. -/
theorem c10_witness :
    (isWavName "kick.wav".toList = true ∧ isWavName "snare.wav".toList = true) ∧
    process_directory id (fun _ => true)
        [FSItem.file "kick.wav".toList, FSItem.file "snare.wav".toList] =
      [OutAction.wrote "kick.wav".toList, OutAction.wrote "snare_001.wav".toList] :=
  ⟨⟨by decide, by decide⟩, by
    rw [c10_counter_advances id (fun _ => true) "kick.wav".toList "snare.wav".toList
      (by decide) (by decide) rfl rfl]
    rw [show normalize_name id "kick.wav".toList 0 = "kick.wav".toList by decide]
    rw [show normalize_name id "snare.wav".toList 1 = "snare_001.wav".toList by decide]⟩

end SP404
